import Mathlib

/-!
A verification development for `src/data/compile_anon_data.py`: a batch
export script that, for each semester in a fixed list, queries course
sections, alert subscriptions and plan schedules from a relational
database, builds per-semester section metadata, per-student watch lists
and estimated registrations, anonymizes student ids by shuffling, and
serializes the three resulting tables only after every semester has been
processed.

Modelling conventions:
* database rows become flattened records (an ORM join path such as
  `section__course__semester` becomes the row field
  `section_course_semester`);
* querysets become lists in database order, `order_by` becomes a sort by
  the named key;
* Python dicts become association lists whose lookup returns the most
  recently inserted binding (`dictGet`), matching dict overwrite
  semantics; `defaultdict(list)` reads are modelled by `touch`/`dget`;
* fallible dict indexing (`d[k]` raising `KeyError`) and `.get()` queries
  are modelled with `Option`; a `none` result of a whole-semester
  computation models the script aborting with an uncaught exception;
* `random.shuffle` becomes an arbitrary `shuffle : List Nat → List Nat`
  parameter, assumed in theorems to produce a permutation of its input;
* timestamps are integers; `timedelta(days=1)` is the constant 86400.
-/

/-- A meeting row: fields `day`, `start`, `end` copied verbatim by the
script (times use the hh.mm encoding). -/
structure Meeting where
  day : String
  start : Rat
  «end» : Rat
  deriving DecidableEq, Repr

/-- A section row, with its course's fields flattened in
(`course_semester` models `course.semester`, `course_primary_listing_id`
models `course.primary_listing_id`). -/
structure Section where
  id : Nat
  course_id : Nat
  code : String
  full_code : String
  status : String
  activity : String
  meetings : List Meeting
  enrollment : Int
  capacity : Int
  course_semester : String
  course_primary_listing_id : Nat
  deriving DecidableEq, Repr

/-- A course row. -/
structure Course where
  id : Nat
  semester : String
  primary_listing_id : Nat
  full_code : String
  deriving DecidableEq, Repr

/-- An alert `Registration` (subscription) row, with the joined section
fields flattened in. -/
structure Registration where
  user_id : Nat
  section_code : String
  section_course_semester : String
  section_course_primary_listing_id : Nat
  notification_sent_at : Option Int
  cancelled_at : Option Int
  deleted_at : Option Int
  created_at : Int
  original_created_at : Int
  deriving DecidableEq, Repr

/-- A plan `Schedule` row, with its many-to-many `sections` inlined. -/
structure Schedule where
  person_id : Nat
  semester : String
  updated_at : Int
  sections : List Section
  deriving DecidableEq, Repr

/-- An `AddDropPeriod` row. -/
structure AddDropPeriod where
  semester : String
  estimated_end : Int
  deriving DecidableEq, Repr

/-- The read-only database state the script queries, together with the
external configuration it reads: the two restriction rule-sets (the
result of `Restriction.special_approval().values_list("sections__id")` for
each regime), `Section.ACTIVITY_CHOICES`, and `FIRST_BANNER_SEM`. -/
structure DB where
  courses : List Course
  sections : List Section
  registrations : List Registration
  schedules : List Schedule
  add_drop_periods : List AddDropPeriod
  ngss_special_approval_section_ids : List Nat
  prengss_special_approval_section_ids : List Nat
  activity_choices : List (String × String)
  first_banner_sem : String
  deriving Repr

/-- Python-dict lookup on an association list: the most recently inserted
(i.e. rightmost) binding wins, matching dict overwrite semantics. -/
def dictGet {α β : Type} [DecidableEq α] : List (α × β) → α → Option β
  | [], _ => none
  | p :: rest, key =>
    match dictGet rest key with
    | some w => some w
    | none => if p.1 = key then some p.2 else none

/-- Reading a `defaultdict(list)` without inserting: the stored list, or
`[]` when the key is absent. -/
def dget (m : List (Nat × List String)) (u : Nat) : List String :=
  (dictGet m u).getD []

/-- `watching[user_id].append(fc)` on a `defaultdict(list)`: append to the
existing binding, or insert the key at the end with a one-element list. -/
def upsertAppend : List (Nat × List String) → Nat → String → List (Nat × List String)
  | [], u, fc => [(u, [fc])]
  | p :: rest, u, fc =>
    if p.1 = u then (p.1, p.2 ++ [fc]) :: rest else p :: upsertAppend rest u fc

/-- A bare `defaultdict(list)` read `watching[u]` inserts the key with
`[]` when absent and otherwise leaves the dict unchanged. -/
def touch : List (Nat × List String) → Nat → List (Nat × List String)
  | [], u => [(u, [])]
  | p :: rest, u => if p.1 = u then p :: rest else p :: touch rest u

/-- Plain dict assignment `e[u] = v`: overwrite an existing binding or
insert the key at the end. -/
def upsertSet : List (Nat × List String) → Nat → List String → List (Nat × List String)
  | [], u, v => [(u, v)]
  | p :: rest, u, v => if p.1 = u then (u, v) :: rest else p :: upsertSet rest u v

/-- Python string comparison `a <= b` on code points, on char lists. -/
def charListLe : List Char → List Char → Bool
  | [], _ => true
  | _ :: _, [] => false
  | c :: cs, d :: ds =>
    c.toNat < d.toNat || (c.toNat == d.toNat && charListLe cs ds)

/-- Python string comparison `a <= b` (lexicographic on code points). -/
def pyStrLe (a b : String) : Bool := charListLe a.data b.data

/-- `AddDropPeriod.objects.get(semester=semester)`: succeeds exactly when
there is a unique matching row, else the script raises. -/
def getAdp (db : DB) (sem : String) : Option AddDropPeriod :=
  match db.add_drop_periods.filter (fun a => a.semester == sem) with
  | [a] => some a
  | _ => none

/-- `snapshot_date = adp.estimated_end - timedelta(days=1)`. -/
def snapshot_date (db : DB) (sem : String) : Option Int :=
  (getAdp db sem).map (fun adp => adp.estimated_end - 86400)

/-- The dict from primary course id to full code, built from courses of
this semester that are their own primary listing. -/
def primary_course_full_codes (db : DB) (sem : String) : List (Nat × String) :=
  (db.courses.filter (fun c => c.semester == sem && c.primary_listing_id == c.id)).map
    (fun c => (c.id, c.full_code))

/-- `permit_required_ids`: the restriction rule-set for the semester's
regime, selected by `semester >= FIRST_BANNER_SEM` (Python string
comparison). -/
def permit_required_ids (db : DB) (sem : String) : List Nat :=
  if pyStrLe db.first_banner_sem sem then db.ngss_special_approval_section_ids
  else db.prengss_special_approval_section_ids

/-- The section queryset filter: `~Q(status="X")`, `~Q(activity="")`,
`course__semester=semester`, `course__primary_listing_id=F("course_id")`. -/
def section_filter (sem : String) (s : Section) : Bool :=
  !(s.status == "X") && !(s.activity == "") && s.course_semester == sem &&
    s.course_primary_listing_id == s.course_id

/-- The per-section record emitted into `section_info`, given the already
looked-up activity display string. -/
structure SectionRec where
  activity : String
  meetings : List Meeting
  enrollment : Int
  capacity : Int
  «open» : Bool
  permit_required : Bool
  deriving DecidableEq, Repr

/-- Builds one `section_info` value. -/
def mkSectionRec (db : DB) (sem : String) (act : String) (s : Section) : SectionRec :=
  { activity := act
    meetings := s.meetings
    enrollment := s.enrollment
    capacity := s.capacity
    «open» := s.status == "O"
    permit_required := (permit_required_ids db sem).contains s.id }

/-- The `section_info` dict comprehension over a given row list; the
lookup `dict(Section.ACTIVITY_CHOICES)[s.activity]` raises (yields `none`)
when an activity is not a known choice. -/
def section_info_rows (db : DB) (sem : String) : List Section → Option (List (String × SectionRec))
  | [] => some []
  | s :: rest => do
    let act ← dictGet db.activity_choices s.activity
    let out ← section_info_rows db sem rest
    pure ((s.full_code, mkSectionRec db sem act s) :: out)

/-- `section_info`: the metadata dict keyed by full code, over the
filtered section queryset. -/
def section_info (db : DB) (sem : String) : Option (List (String × SectionRec)) :=
  section_info_rows db sem (db.sections.filter (section_filter sem))

/-- The `active_subscriptions` queryset filter, as of snapshot `snap`:
not notified or notified strictly after, not cancelled or cancelled
strictly after, not deleted or deleted strictly after, created at or
before, and for a section of this semester. -/
def subscription_filter (sem : String) (snap : Int) (r : Registration) : Bool :=
  r.notification_sent_at.all (fun t => decide (snap < t)) &&
  r.cancelled_at.all (fun t => decide (snap < t)) &&
  r.deleted_at.all (fun t => decide (snap < t)) &&
  decide (r.created_at ≤ snap) &&
  r.section_course_semester == sem

/-- The `order_by("original_created_at")` key relation. -/
def origLe (a b : Registration) : Prop :=
  a.original_created_at ≤ b.original_created_at

instance : DecidableRel origLe :=
  fun a b => inferInstanceAs (Decidable (a.original_created_at ≤ b.original_created_at))

instance : IsTotal Registration origLe :=
  ⟨fun a b => Int.le_total a.original_created_at b.original_created_at⟩

instance : IsTrans Registration origLe :=
  ⟨fun _ _ _ h h' => le_trans h h'⟩

/-- `active_subscriptions`: the filtered subscription rows ordered by
`original_created_at`. -/
def active_subscriptions (db : DB) (sem : String) (snap : Int) : List Registration :=
  List.insertionSort origLe (db.registrations.filter (subscription_filter sem snap))

/-- Maximum of a list of integers, `none` on the empty list (models the
`order_by("-updated_at")[:1]` subquery value). -/
def listMaxInt : List Int → Option Int
  | [] => none
  | x :: rest =>
    match listMaxInt rest with
    | none => some x
    | some m => some (max x m)

/-- The `max_updated_at` annotation: the greatest `updated_at` among this
person's schedules in this semester. -/
def max_updated_at (db : DB) (sem : String) (pid : Nat) : Option Int :=
  listMaxInt
    ((db.schedules.filter (fun t => t.person_id == pid && t.semester == sem)).map
      (fun t => t.updated_at))

/-- `latest_schedules`: schedules of this semester whose `updated_at`
equals their person's `max_updated_at`. -/
def latest_schedules (db : DB) (sem : String) : List Schedule :=
  db.schedules.filter
    (fun s => s.semester == sem && max_updated_at db sem s.person_id == some s.updated_at)

/-- `primary_course_full_codes[primary_listing_id] + f"-{code}"`; `none`
models the `KeyError` when the primary course id is not in the dict. -/
def resolve_full_code (pcfc : List (Nat × String)) (plid : Nat) (code : String) : Option String :=
  (dictGet pcfc plid).map (fun fc => fc ++ "-" ++ code)

/-- The watch-list building loop: resolve each row's full code, skip codes
not in `valid`, append the rest to the row's user's list. -/
def watchLoop (pcfc : List (Nat × String)) (valid : List String) :
    List Registration → List (Nat × List String) → Option (List (Nat × List String))
  | [], acc => some acc
  | r :: rest, acc => do
    let fc ← resolve_full_code pcfc r.section_course_primary_listing_id r.section_code
    watchLoop pcfc valid rest (if valid.contains fc then upsertAppend acc r.user_id fc else acc)

/-- Resolves every section of a schedule to its full code. -/
def resolve_schedule_sections (pcfc : List (Nat × String)) : List Section → Option (List String)
  | [] => some []
  | s :: rest => do
    let fc ← resolve_full_code pcfc s.course_primary_listing_id s.code
    let out ← resolve_schedule_sections pcfc rest
    pure (fc :: out)

/-- The estimated-registration loop over `latest_schedules`: for each
schedule, intersect its resolved codes with `valid`, read
`watching[user_id]` (a `defaultdict` read which inserts the key), and
store the set difference in `est_registration[user_id]`. -/
def estLoop (pcfc : List (Nat × String)) (valid : List String) :
    List Schedule → List (Nat × List String) → List (Nat × List String) →
    Option (List (Nat × List String) × List (Nat × List String))
  | [], w, e => some (w, e)
  | s :: rest, w, e => do
    let codes ← resolve_schedule_sections pcfc s.sections
    let codes1 := codes.filter (fun c => valid.contains c)
    let w1 := touch w s.person_id
    let wl := dget w1 s.person_id
    estLoop pcfc valid rest w1 (upsertSet e s.person_id (codes1.filter (fun c => !wl.contains c)))

/-- The three per-semester tables (also the shape of one semester's slice
of the exported files). -/
structure SemesterData where
  section_info : List (String × SectionRec)
  watching : List (Nat × List String)
  est_registration : List (Nat × List String)
  deriving DecidableEq, Repr

/-- One semester's processing before anonymization. -/
def semesterData (db : DB) (sem : String) : Option SemesterData := do
  let snap ← snapshot_date db sem
  let sinfo ← section_info db sem
  let valid := sinfo.map Prod.fst
  let pcfc := primary_course_full_codes db sem
  let w ← watchLoop pcfc valid (active_subscriptions db sem snap) []
  let (w1, e) ← estLoop pcfc valid (latest_schedules db sem) w []
  pure ⟨sinfo, w1, e⟩

/-- `student_ids = list(set(watching.keys()) | set(est_registration.keys()))`. -/
def student_ids (w e : List (Nat × List String)) : List Nat :=
  (w.map Prod.fst ++ e.map Prod.fst).dedup

/-- Enumeration `{old_id: i for i, old_id in enumerate(ids)}` starting at
index `i`. -/
def anonFrom (i : Nat) : List Nat → List (Nat × Nat)
  | [] => []
  | u :: rest => (u, i) :: anonFrom (i + 1) rest

/-- The anonymization dict over a (shuffled) id list. -/
def anon_num (ids : List Nat) : List (Nat × Nat) := anonFrom 0 ids

/-- The anonymization dict a semester run builds: a shuffled enumeration
of all student ids observed as keys of `watching` or `est_registration`. -/
def anonMap (pre : SemesterData) (shuffle : List Nat → List Nat) : List (Nat × Nat) :=
  anon_num (shuffle (student_ids pre.watching pre.est_registration))

/-- `{anon_num[u]: v for u, v in m.items()}`; `none` models the `KeyError`
when a key is missing from `anon_num`. -/
def remapKeys (anon : List (Nat × Nat)) : List (Nat × List String) → Option (List (Nat × List String))
  | [] => some []
  | p :: rest => do
    let a ← dictGet anon p.1
    let out ← remapKeys anon rest
    pure ((a, p.2) :: out)

/-- Full processing of one semester: build the tables, then anonymize the
student keys of `watching` and `est_registration` through a shuffled
enumeration of all observed student ids. -/
def processSemester (db : DB) (sem : String) (shuffle : List Nat → List Nat) :
    Option SemesterData := do
  let pre ← semesterData db sem
  let anon := anonMap pre shuffle
  let w ← remapKeys anon pre.watching
  let e ← remapKeys anon pre.est_registration
  pure ⟨pre.section_info, w, e⟩

/-- The whole run: process every semester in order; the output (the data
the three `pickle.dump` calls write, keyed by semester) exists only if
every semester succeeded, since an uncaught exception aborts the run
before any file is written. -/
def runAll (db : DB) (shuffle : List Nat → List Nat) :
    List String → Option (List (String × SemesterData))
  | [] => some []
  | sem :: rest => do
    let r ← processSemester db sem shuffle
    let out ← runAll db shuffle rest
    pure ((sem, r) :: out)

/-- What one subscription row contributes to student `u`'s watch list:
its resolved full code, provided the row belongs to `u` and the code is
in `valid`; `none` otherwise. -/
def rowContrib (pcfc : List (Nat × String)) (valid : List String) (u : Nat)
    (r : Registration) : Option String :=
  match resolve_full_code pcfc r.section_course_primary_listing_id r.section_code with
  | none => none
  | some fc => if r.user_id = u ∧ valid.contains fc = true then some fc else none

/-- The estimated registration derived from a single schedule: its
resolved codes, intersected with `valid`, minus the watch list `wl`. -/
def estValue (pcfc : List (Nat × String)) (valid : List String) (wl : List String)
    (s : Schedule) : Option (List String) :=
  (resolve_schedule_sections pcfc s.sections).map
    (fun codes => (codes.filter (fun c => valid.contains c)).filter (fun c => !wl.contains c))

/-- The last schedule in the list belonging to person `p` (the one whose
dict write survives the overwrites of the estimation loop). -/
def lastWith (p : Nat) : List Schedule → Option Schedule
  | [] => none
  | s :: rest =>
    match lastWith p rest with
    | some t => some t
    | none => if s.person_id = p then some s else none

/-- An open lecture section CIS-120-001 of the example database. -/
def exSec1 : Section :=
  ⟨10, 1, "001", "CIS-120-001", "O", "LEC", [], 5, 10, "2020C", 1⟩

/-- A closed lecture section CIS-120-002 of the example database. -/
def exSec2 : Section :=
  ⟨11, 1, "002", "CIS-120-002", "C", "LEC", [], 10, 10, "2020C", 1⟩

/-- Student 7 watches section 001: subscription row created at 20, but
originally created at 5 (a resubscription of an older chain). -/
def exRegA : Registration := ⟨7, "001", "2020C", 1, none, none, none, 20, 5⟩

/-- Student 7 watches section 002: fresh subscription row created at 10
(so also originally created at 10). -/
def exRegB : Registration := ⟨7, "002", "2020C", 1, none, none, none, 10, 10⟩

/-- Student 7's schedule: section 002 only. -/
def exSched7 : Schedule := ⟨7, "2020C", 50, [exSec2]⟩

/-- Student 8's schedule: section 001 only; student 8 has no
subscriptions. -/
def exSched8 : Schedule := ⟨8, "2020C", 60, [exSec1]⟩

/-- A small concrete database: one course with two sections, one student
(7) with two active subscriptions and a schedule, and one student (8)
with a schedule but no subscriptions.  Its add/drop period makes the
snapshot time 100. -/
def exDb : DB :=
  { courses := [⟨1, "2020C", 1, "CIS-120"⟩]
    sections := [exSec1, exSec2]
    registrations := [exRegA, exRegB]
    schedules := [exSched7, exSched8]
    add_drop_periods := [⟨"2020C", 86500⟩]
    ngss_special_approval_section_ids := [11]
    prengss_special_approval_section_ids := []
    activity_choices := [("LEC", "Lecture")]
    first_banner_sem := "2022A" }

/-- The section metadata the example database produces for 2020C. -/
def exSinfo : List (String × SectionRec) :=
  [("CIS-120-001", ⟨"Lecture", [], 5, 10, true, false⟩),
   ("CIS-120-002", ⟨"Lecture", [], 10, 10, false, false⟩)]

/-- The pre-anonymization tables of the example database for 2020C. -/
def exPre : SemesterData :=
  ⟨exSinfo, [(7, ["CIS-120-001", "CIS-120-002"]), (8, [])],
    [(7, []), (8, ["CIS-120-001"])]⟩

/-- The exported tables of the example database for 2020C under the
identity shuffle. -/
def exOut : SemesterData :=
  ⟨exSinfo, [(0, ["CIS-120-001", "CIS-120-002"]), (1, [])],
    [(0, []), (1, ["CIS-120-001"])]⟩

theorem dictGet_cons_ne {α β : Type} [DecidableEq α] {p : α × β} {rest : List (α × β)} {k : α}
    (h : p.1 ≠ k) : dictGet (p :: rest) k = dictGet rest k := by
  simp only [dictGet]
  cases dictGet rest k with
  | some w => rfl
  | none => simp [h]

theorem dictGet_mem {α β : Type} [DecidableEq α] {m : List (α × β)} {k : α} {v : β}
    (h : dictGet m k = some v) : (k, v) ∈ m := by
  induction m with
  | nil => simp [dictGet] at h
  | cons p rest ih =>
    simp only [dictGet] at h
    split at h
    next w hw =>
      cases h
      exact List.mem_cons_of_mem _ (ih hw)
    next hw =>
      split at h
      next hk =>
        cases h
        subst hk
        exact List.mem_cons_self _ _
      next => cases h

theorem dictGet_isSome_iff {α β : Type} [DecidableEq α] {m : List (α × β)} {k : α} :
    ((dictGet m k).isSome = true) ↔ k ∈ m.map Prod.fst := by
  induction m with
  | nil => simp [dictGet]
  | cons p rest ih =>
    cases hr : dictGet rest k with
    | some w =>
      have hk : k ∈ rest.map Prod.fst := ih.mp (by simp [hr])
      simp [dictGet, hr, hk]
    | none =>
      have hk : k ∉ rest.map Prod.fst := by
        intro hm
        have := ih.mpr hm
        simp [hr] at this
      by_cases hp : p.1 = k
      · simp [dictGet, hr, hp]
      · have hp' : ¬k = p.1 := fun h => hp h.symm
        simp [dictGet, hr, hp, hk, hp']

theorem dictGet_eq_none_of_not_mem {α β : Type} [DecidableEq α] {m : List (α × β)} {k : α}
    (h : k ∉ m.map Prod.fst) : dictGet m k = none := by
  cases hd : dictGet m k with
  | none => rfl
  | some w =>
    exact absurd (dictGet_isSome_iff.mp (by simp [hd])) h

theorem dictGet_eq_some_of_mem {α β : Type} [DecidableEq α] {m : List (α × β)} {k : α} {v : β}
    (hn : (m.map Prod.fst).Nodup) (hm : (k, v) ∈ m) : dictGet m k = some v := by
  induction m with
  | nil => simp at hm
  | cons p rest ih =>
    simp only [List.map_cons, List.nodup_cons] at hn
    rcases List.mem_cons.mp hm with h | h
    · have hk : p.1 = k := by rw [← h]
      have hrest : dictGet rest k = none := by
        apply dictGet_eq_none_of_not_mem
        rw [← hk]
        exact hn.1
      simp [dictGet, hrest, hk, ← h]
    · have := ih hn.2 h
      simp [dictGet, this]

theorem upsertAppend_cons_eq {p : Nat × List String} {rest : List (Nat × List String)}
    {u : Nat} {fc : String} (hp : p.1 = u) :
    upsertAppend (p :: rest) u fc = (p.1, p.2 ++ [fc]) :: rest := by
  simp [upsertAppend, hp]

theorem upsertAppend_cons_ne {p : Nat × List String} {rest : List (Nat × List String)}
    {u : Nat} {fc : String} (hp : p.1 ≠ u) :
    upsertAppend (p :: rest) u fc = p :: upsertAppend rest u fc := by
  simp [upsertAppend, hp]

theorem touch_cons_eq {p : Nat × List String} {rest : List (Nat × List String)}
    {u : Nat} (hp : p.1 = u) : touch (p :: rest) u = p :: rest := by
  simp [touch, hp]

theorem touch_cons_ne {p : Nat × List String} {rest : List (Nat × List String)}
    {u : Nat} (hp : p.1 ≠ u) : touch (p :: rest) u = p :: touch rest u := by
  simp [touch, hp]

theorem upsertSet_cons_eq {p : Nat × List String} {rest : List (Nat × List String)}
    {u : Nat} {v : List String} (hp : p.1 = u) :
    upsertSet (p :: rest) u v = (u, v) :: rest := by
  simp [upsertSet, hp]

theorem upsertSet_cons_ne {p : Nat × List String} {rest : List (Nat × List String)}
    {u : Nat} {v : List String} (hp : p.1 ≠ u) :
    upsertSet (p :: rest) u v = p :: upsertSet rest u v := by
  simp [upsertSet, hp]

theorem dictGet_cons_collapse {α β : Type} [DecidableEq α] {p : α × β} {rest : List (α × β)}
    {k : α} : dictGet (p :: rest) k =
      match dictGet rest k with
      | some w => some w
      | none => if p.1 = k then some p.2 else none := by
  cases hd : dictGet rest k with
  | some w => simp [dictGet, hd]
  | none => simp [dictGet, hd]

theorem mem_keys_upsertAppend {m : List (Nat × List String)} {u k : Nat} {fc : String} :
    k ∈ (upsertAppend m u fc).map Prod.fst ↔ k = u ∨ k ∈ m.map Prod.fst := by
  induction m with
  | nil => simp [upsertAppend]
  | cons p rest ih =>
    by_cases hp : p.1 = u
    · rw [upsertAppend_cons_eq hp]
      simp [hp]
    · rw [upsertAppend_cons_ne hp]
      simp only [List.map_cons, List.mem_cons, ih]
      tauto

theorem nodup_keys_upsertAppend {m : List (Nat × List String)} {u : Nat} {fc : String}
    (hn : (m.map Prod.fst).Nodup) : ((upsertAppend m u fc).map Prod.fst).Nodup := by
  induction m with
  | nil => simp [upsertAppend]
  | cons p rest ih =>
    simp only [List.map_cons, List.nodup_cons] at hn
    by_cases hp : p.1 = u
    · rw [upsertAppend_cons_eq hp]
      simpa [List.nodup_cons] using hn
    · rw [upsertAppend_cons_ne hp]
      simp only [List.map_cons, List.nodup_cons]
      refine ⟨fun hm => ?_, ih hn.2⟩
      rcases mem_keys_upsertAppend.mp hm with h | h
      · exact hp h
      · exact hn.1 h

theorem dictGet_upsertAppend_ne {m : List (Nat × List String)} {u k : Nat} {fc : String}
    (h : k ≠ u) : dictGet (upsertAppend m u fc) k = dictGet m k := by
  induction m with
  | nil => simp [upsertAppend, dictGet, Ne.symm h]
  | cons p rest ih =>
    by_cases hp : p.1 = u
    · rw [upsertAppend_cons_eq hp]
      rw [dictGet_cons_ne (show (p.1, p.2 ++ [fc]).1 ≠ k from hp ▸ Ne.symm h)]
      rw [dictGet_cons_ne (hp ▸ Ne.symm h)]
    · rw [upsertAppend_cons_ne hp, dictGet_cons_collapse, dictGet_cons_collapse, ih]

theorem dictGet_upsertAppend_self {m : List (Nat × List String)} {u : Nat} {fc : String}
    (hn : (m.map Prod.fst).Nodup) :
    dictGet (upsertAppend m u fc) u = some (dget m u ++ [fc]) := by
  induction m with
  | nil => simp [upsertAppend, dictGet, dget]
  | cons p rest ih =>
    simp only [List.map_cons, List.nodup_cons] at hn
    by_cases hp : p.1 = u
    · rw [upsertAppend_cons_eq hp]
      have hrest : dictGet rest u = none := by
        apply dictGet_eq_none_of_not_mem
        rw [← hp]
        exact hn.1
      have hd : dget (p :: rest) u = p.2 := by
        simp [dget, dictGet_cons_collapse, hrest, hp]
      rw [hd, dictGet_cons_collapse, hrest]
      simp [hp]
    · have hd : dget (p :: rest) u = dget rest u := by
        simp [dget, dictGet_cons_ne hp]
      rw [upsertAppend_cons_ne hp, hd, dictGet_cons_collapse, ih hn.2]

theorem mem_keys_touch {m : List (Nat × List String)} {u k : Nat} :
    k ∈ (touch m u).map Prod.fst ↔ k = u ∨ k ∈ m.map Prod.fst := by
  induction m with
  | nil => simp [touch]
  | cons p rest ih =>
    by_cases hp : p.1 = u
    · rw [touch_cons_eq hp]
      simp [hp]
    · rw [touch_cons_ne hp]
      simp only [List.map_cons, List.mem_cons, ih]
      tauto

theorem nodup_keys_touch {m : List (Nat × List String)} {u : Nat}
    (hn : (m.map Prod.fst).Nodup) : ((touch m u).map Prod.fst).Nodup := by
  induction m with
  | nil => simp [touch]
  | cons p rest ih =>
    simp only [List.map_cons, List.nodup_cons] at hn
    by_cases hp : p.1 = u
    · rw [touch_cons_eq hp]
      simpa [List.nodup_cons] using hn
    · rw [touch_cons_ne hp]
      simp only [List.map_cons, List.nodup_cons]
      refine ⟨fun hm => ?_, ih hn.2⟩
      rcases mem_keys_touch.mp hm with h | h
      · exact hp h
      · exact hn.1 h

theorem dictGet_touch_ne {m : List (Nat × List String)} {u k : Nat}
    (h : k ≠ u) : dictGet (touch m u) k = dictGet m k := by
  induction m with
  | nil => simp [touch, dictGet, Ne.symm h]
  | cons p rest ih =>
    by_cases hp : p.1 = u
    · rw [touch_cons_eq hp]
    · rw [touch_cons_ne hp, dictGet_cons_collapse, dictGet_cons_collapse, ih]

theorem dictGet_touch_self {m : List (Nat × List String)} {u : Nat}
    (hn : (m.map Prod.fst).Nodup) : dictGet (touch m u) u = some (dget m u) := by
  induction m with
  | nil => simp [touch, dictGet, dget]
  | cons p rest ih =>
    simp only [List.map_cons, List.nodup_cons] at hn
    by_cases hp : p.1 = u
    · rw [touch_cons_eq hp]
      have hrest : dictGet rest u = none := by
        apply dictGet_eq_none_of_not_mem
        rw [← hp]
        exact hn.1
      have hd : dget (p :: rest) u = p.2 := by
        simp [dget, dictGet_cons_collapse, hrest, hp]
      rw [hd, dictGet_cons_collapse, hrest]
      simp [hp]
    · have hd : dget (p :: rest) u = dget rest u := by
        simp [dget, dictGet_cons_ne hp]
      rw [touch_cons_ne hp, hd, dictGet_cons_collapse, ih hn.2]

theorem dget_touch {m : List (Nat × List String)} {u k : Nat}
    (hn : (m.map Prod.fst).Nodup) : dget (touch m u) k = dget m k := by
  by_cases h : k = u
  · subst h
    simp [dget, dictGet_touch_self hn]
  · simp [dget, dictGet_touch_ne h]

theorem mem_keys_upsertSet {m : List (Nat × List String)} {u k : Nat} {v : List String} :
    k ∈ (upsertSet m u v).map Prod.fst ↔ k = u ∨ k ∈ m.map Prod.fst := by
  induction m with
  | nil => simp [upsertSet]
  | cons p rest ih =>
    by_cases hp : p.1 = u
    · rw [upsertSet_cons_eq hp]
      simp [hp]
    · rw [upsertSet_cons_ne hp]
      simp only [List.map_cons, List.mem_cons, ih]
      tauto

theorem nodup_keys_upsertSet {m : List (Nat × List String)} {u : Nat} {v : List String}
    (hn : (m.map Prod.fst).Nodup) : ((upsertSet m u v).map Prod.fst).Nodup := by
  induction m with
  | nil => simp [upsertSet]
  | cons p rest ih =>
    simp only [List.map_cons, List.nodup_cons] at hn
    by_cases hp : p.1 = u
    · rw [upsertSet_cons_eq hp]
      simp only [List.map_cons, List.nodup_cons]
      refine ⟨?_, hn.2⟩
      rw [← hp]
      exact hn.1
    · rw [upsertSet_cons_ne hp]
      simp only [List.map_cons, List.nodup_cons]
      refine ⟨fun hm => ?_, ih hn.2⟩
      rcases mem_keys_upsertSet.mp hm with h | h
      · exact hp h
      · exact hn.1 h

theorem dictGet_upsertSet_ne {m : List (Nat × List String)} {u k : Nat} {v : List String}
    (h : k ≠ u) : dictGet (upsertSet m u v) k = dictGet m k := by
  induction m with
  | nil => simp [upsertSet, dictGet, Ne.symm h]
  | cons p rest ih =>
    by_cases hp : p.1 = u
    · rw [upsertSet_cons_eq hp]
      rw [dictGet_cons_ne (show ((u, v) : Nat × List String).1 ≠ k from Ne.symm h)]
      rw [dictGet_cons_ne (hp ▸ Ne.symm h)]
    · rw [upsertSet_cons_ne hp, dictGet_cons_collapse, dictGet_cons_collapse, ih]

theorem dictGet_upsertSet_self {m : List (Nat × List String)} {u : Nat} {v : List String}
    (hn : (m.map Prod.fst).Nodup) : dictGet (upsertSet m u v) u = some v := by
  induction m with
  | nil => simp [upsertSet, dictGet]
  | cons p rest ih =>
    simp only [List.map_cons, List.nodup_cons] at hn
    by_cases hp : p.1 = u
    · rw [upsertSet_cons_eq hp]
      have hrest : dictGet rest u = none := by
        apply dictGet_eq_none_of_not_mem
        rw [← hp]
        exact hn.1
      simp [dictGet, hrest]
    · rw [upsertSet_cons_ne hp, dictGet_cons_collapse, ih hn.2]

theorem upsertAppend_values {m : List (Nat × List String)} {u : Nat} {fc : String}
    {P : String → Prop} (hm : ∀ q ∈ m, ∀ c ∈ q.2, P c) (hfc : P fc) :
    ∀ q ∈ upsertAppend m u fc, ∀ c ∈ q.2, P c := by
  induction m with
  | nil =>
    intro q hq c hc
    simp [upsertAppend] at hq
    subst hq
    simp at hc
    subst hc
    exact hfc
  | cons p rest ih =>
    by_cases hp : p.1 = u
    · intro q hq c hc
      rw [upsertAppend_cons_eq hp] at hq
      rcases List.mem_cons.mp hq with h | h
      · subst h
        simp only [List.mem_append, List.mem_singleton] at hc
        rcases hc with hc | hc
        · exact hm p (List.mem_cons_self _ _) c hc
        · subst hc
          exact hfc
      · exact hm q (List.mem_cons_of_mem _ h) c hc
    · intro q hq c hc
      rw [upsertAppend_cons_ne hp] at hq
      rcases List.mem_cons.mp hq with h | h
      · subst h
        exact hm q (List.mem_cons_self _ _) c hc
      · exact ih (fun q' hq' => hm q' (List.mem_cons_of_mem _ hq')) q h c hc

theorem touch_values {m : List (Nat × List String)} {u : Nat}
    {P : String → Prop} (hm : ∀ q ∈ m, ∀ c ∈ q.2, P c) :
    ∀ q ∈ touch m u, ∀ c ∈ q.2, P c := by
  induction m with
  | nil =>
    intro q hq c hc
    simp [touch] at hq
    subst hq
    simp at hc
  | cons p rest ih =>
    by_cases hp : p.1 = u
    · rw [touch_cons_eq hp]
      exact hm
    · intro q hq c hc
      rw [touch_cons_ne hp] at hq
      rcases List.mem_cons.mp hq with h | h
      · subst h
        exact hm q (List.mem_cons_self _ _) c hc
      · exact ih (fun q' hq' => hm q' (List.mem_cons_of_mem _ hq')) q h c hc

theorem upsertSet_values {m : List (Nat × List String)} {u : Nat} {v : List String}
    {P : String → Prop} (hm : ∀ q ∈ m, ∀ c ∈ q.2, P c) (hv : ∀ c ∈ v, P c) :
    ∀ q ∈ upsertSet m u v, ∀ c ∈ q.2, P c := by
  induction m with
  | nil =>
    intro q hq c hc
    simp [upsertSet] at hq
    subst hq
    exact hv c hc
  | cons p rest ih =>
    by_cases hp : p.1 = u
    · intro q hq c hc
      rw [upsertSet_cons_eq hp] at hq
      rcases List.mem_cons.mp hq with h | h
      · subst h
        exact hv c hc
      · exact hm q (List.mem_cons_of_mem _ h) c hc
    · intro q hq c hc
      rw [upsertSet_cons_ne hp] at hq
      rcases List.mem_cons.mp hq with h | h
      · subst h
        exact hm q (List.mem_cons_self _ _) c hc
      · exact ih (fun q' hq' => hm q' (List.mem_cons_of_mem _ hq')) q h c hc

theorem watchLoop_sound {pcfc : List (Nat × String)} {valid : List String} :
    ∀ {rows : List Registration} {acc w : List (Nat × List String)},
      watchLoop pcfc valid rows acc = some w → (acc.map Prod.fst).Nodup →
      (w.map Prod.fst).Nodup ∧
      (∀ u, dget w u = dget acc u ++ rows.filterMap (rowContrib pcfc valid u)) ∧
      (∀ u, (dictGet w u).isSome = true ↔
        ((dictGet acc u).isSome = true ∨ rows.filterMap (rowContrib pcfc valid u) ≠ [])) := by
  intro rows
  induction rows with
  | nil =>
    intro acc w h hn
    have haw : acc = w := by simpa [watchLoop] using h
    subst haw
    exact ⟨hn, fun u => by simp, fun u => by simp⟩
  | cons r rest ih =>
    intro acc w h hn
    cases hr : resolve_full_code pcfc r.section_course_primary_listing_id r.section_code with
    | none =>
      rw [watchLoop, hr] at h
      simp at h
    | some fc =>
      rw [watchLoop, hr] at h
      simp only [bind, Option.bind] at h
      by_cases hv : valid.contains fc = true
      · rw [if_pos hv] at h
        have hn' := @nodup_keys_upsertAppend acc r.user_id fc hn
        have hv' : fc ∈ valid := by simpa using hv
        obtain ⟨hw, hdget, hkey⟩ := ih h hn'
        refine ⟨hw, fun u => ?_, fun u => ?_⟩
        · rw [hdget u]
          by_cases hu : r.user_id = u
          · subst hu
            have hval : dget (upsertAppend acc r.user_id fc) r.user_id
                = dget acc r.user_id ++ [fc] := by
              simp [dget, dictGet_upsertAppend_self hn]
            have hcontrib : rowContrib pcfc valid r.user_id r = some fc := by
              simp [rowContrib, hr, hv']
            rw [hval, List.filterMap_cons, hcontrib]
            simp
          · have hu' : u ≠ r.user_id := fun hh => hu hh.symm
            have hval : dget (upsertAppend acc r.user_id fc) u = dget acc u := by
              simp [dget, dictGet_upsertAppend_ne hu']
            have hcontrib : rowContrib pcfc valid u r = none := by
              simp [rowContrib, hr, hu]
            rw [hval, List.filterMap_cons, hcontrib]
        · rw [hkey u]
          have hacc' : (dictGet (upsertAppend acc r.user_id fc) u).isSome = true
              ↔ (u = r.user_id ∨ (dictGet acc u).isSome = true) := by
            rw [dictGet_isSome_iff, mem_keys_upsertAppend, dictGet_isSome_iff]
          rw [hacc']
          by_cases hu : r.user_id = u
          · subst hu
            have hcontrib : rowContrib pcfc valid r.user_id r = some fc := by
              simp [rowContrib, hr, hv']
            simp [List.filterMap_cons, hcontrib]
          · have hu' : ¬u = r.user_id := fun hh => hu hh.symm
            have hcontrib : rowContrib pcfc valid u r = none := by
              simp [rowContrib, hr, hu]
            simp [List.filterMap_cons, hcontrib, hu']
      · rw [if_neg hv] at h
        obtain ⟨hw, hdget, hkey⟩ := ih h hn
        have hv' : fc ∉ valid := by simpa using hv
        have hcontrib : ∀ u, rowContrib pcfc valid u r = none := by
          intro u
          simp [rowContrib, hr, hv']
        refine ⟨hw, fun u => ?_, fun u => ?_⟩
        · rw [hdget u, List.filterMap_cons, hcontrib]
        · rw [hkey u, List.filterMap_cons, hcontrib]

theorem watchLoop_values {pcfc : List (Nat × String)} {valid : List String} :
    ∀ {rows : List Registration} {acc w : List (Nat × List String)},
      watchLoop pcfc valid rows acc = some w →
      (∀ q ∈ acc, ∀ c ∈ q.2, c ∈ valid) → ∀ q ∈ w, ∀ c ∈ q.2, c ∈ valid := by
  intro rows
  induction rows with
  | nil =>
    intro acc w h hacc
    have haw : acc = w := by simpa [watchLoop] using h
    subst haw
    exact hacc
  | cons r rest ih =>
    intro acc w h hacc
    cases hr : resolve_full_code pcfc r.section_course_primary_listing_id r.section_code with
    | none =>
      rw [watchLoop, hr] at h
      simp at h
    | some fc =>
      rw [watchLoop, hr] at h
      simp only [bind, Option.bind] at h
      by_cases hv : valid.contains fc = true
      · rw [if_pos hv] at h
        have hv' : fc ∈ valid := by simpa using hv
        exact ih h (upsertAppend_values hacc hv')
      · rw [if_neg hv] at h
        exact ih h hacc

theorem lastWith_cons {p : Nat} {s : Schedule} {rest : List Schedule} :
    lastWith p (s :: rest) =
      match lastWith p rest with
      | some t => some t
      | none => if s.person_id = p then some s else none := by
  cases hd : lastWith p rest with
  | some t => simp [lastWith, hd]
  | none => simp [lastWith, hd]

theorem estLoop_sound {pcfc : List (Nat × String)} {valid : List String} :
    ∀ {scheds : List Schedule} {w e w' e' : List (Nat × List String)},
      estLoop pcfc valid scheds w e = some (w', e') →
      (w.map Prod.fst).Nodup → (e.map Prod.fst).Nodup →
      (w'.map Prod.fst).Nodup ∧ (e'.map Prod.fst).Nodup ∧
      (∀ u, dget w' u = dget w u) ∧
      (∀ u, (dictGet w' u).isSome = true ↔
        ((dictGet w u).isSome = true ∨ u ∈ scheds.map Schedule.person_id)) ∧
      (∀ p, (dictGet e' p).isSome = true ↔
        ((dictGet e p).isSome = true ∨ p ∈ scheds.map Schedule.person_id)) ∧
      (∀ p s, lastWith p scheds = some s →
        ∃ v, dictGet e' p = some v ∧ estValue pcfc valid (dget w p) s = some v) ∧
      (∀ p, lastWith p scheds = none → dictGet e' p = dictGet e p) := by
  intro scheds
  induction scheds with
  | nil =>
    intro w e w' e' h hnw hne
    have hpair : w = w' ∧ e = e' := by
      have := h
      simp [estLoop] at this
      exact this
    obtain ⟨h1, h2⟩ := hpair
    subst h1
    subst h2
    refine ⟨hnw, hne, fun u => rfl, fun u => by simp [lastWith], fun p => by simp [lastWith],
      fun p s hs => by simp [lastWith] at hs, fun p _ => rfl⟩
  | cons s rest ih =>
    intro w e w' e' h hnw hne
    cases hc : resolve_schedule_sections pcfc s.sections with
    | none =>
      rw [estLoop, hc] at h
      simp at h
    | some codes =>
      rw [estLoop, hc] at h
      simp only [bind, Option.bind] at h
      have hnw1 : ((touch w s.person_id).map Prod.fst).Nodup := nodup_keys_touch hnw
      have hne1 : ((upsertSet e s.person_id
          ((codes.filter fun c => valid.contains c).filter
            (fun c => !(dget (touch w s.person_id) s.person_id).contains c))).map
            Prod.fst).Nodup := nodup_keys_upsertSet hne
      obtain ⟨hw', he', hdg, hkw, hke, hlast, hnone⟩ := ih h hnw1 hne1
      have hdgt : ∀ u, dget (touch w s.person_id) u = dget w u := fun u => dget_touch hnw
      refine ⟨hw', he', fun u => ?_, fun u => ?_, fun p => ?_, fun p t ht => ?_, fun p hn0 => ?_⟩
      · rw [hdg u, hdgt u]
      · rw [hkw u]
        have : (dictGet (touch w s.person_id) u).isSome = true
            ↔ (u = s.person_id ∨ (dictGet w u).isSome = true) := by
          rw [dictGet_isSome_iff, mem_keys_touch, dictGet_isSome_iff]
        rw [this]
        simp only [List.map_cons, List.mem_cons]
        tauto
      · rw [hke p]
        have : (dictGet (upsertSet e s.person_id
            ((codes.filter fun c => valid.contains c).filter
              (fun c => !(dget (touch w s.person_id) s.person_id).contains c))) p).isSome = true
            ↔ (p = s.person_id ∨ (dictGet e p).isSome = true) := by
          rw [dictGet_isSome_iff, mem_keys_upsertSet, dictGet_isSome_iff]
        rw [this]
        simp only [List.map_cons, List.mem_cons]
        tauto
      · rw [lastWith_cons] at ht
        cases hlw : lastWith p rest with
        | some t0 =>
          rw [hlw] at ht
          cases ht
          obtain ⟨v, hv1, hv2⟩ := hlast p _ hlw
          rw [hdgt p] at hv2
          exact ⟨v, hv1, hv2⟩
        | none =>
          rw [hlw] at ht
          by_cases hps : s.person_id = p
          · rw [if_pos hps] at ht
            cases ht
            have h1 : dictGet e' p = dictGet (upsertSet e s.person_id
                ((codes.filter fun c => valid.contains c).filter
                  (fun c => !(dget (touch w s.person_id) s.person_id).contains c))) p :=
              hnone p hlw
            subst hps
            rw [dictGet_upsertSet_self hne] at h1
            refine ⟨_, h1, ?_⟩
            simp [estValue, hc, dget_touch hnw]
          · rw [if_neg hps] at ht
            cases ht
      · rw [lastWith_cons] at hn0
        cases hlw : lastWith p rest with
        | some t0 =>
          rw [hlw] at hn0
          cases hn0
        | none =>
          rw [hlw] at hn0
          by_cases hps : s.person_id = p
          · rw [if_pos hps] at hn0
            cases hn0
          · rw [if_neg hps] at hn0
            have h1 := hnone p hlw
            rw [h1, dictGet_upsertSet_ne (fun hh => hps hh.symm)]

theorem estLoop_values {pcfc : List (Nat × String)} {valid : List String} :
    ∀ {scheds : List Schedule} {w e w' e' : List (Nat × List String)},
      estLoop pcfc valid scheds w e = some (w', e') →
      (∀ q ∈ w, ∀ c ∈ q.2, c ∈ valid) → (∀ q ∈ e, ∀ c ∈ q.2, c ∈ valid) →
      (∀ q ∈ w', ∀ c ∈ q.2, c ∈ valid) ∧ (∀ q ∈ e', ∀ c ∈ q.2, c ∈ valid) := by
  intro scheds
  induction scheds with
  | nil =>
    intro w e w' e' h hw he
    have hpair : w = w' ∧ e = e' := by
      have := h
      simp [estLoop] at this
      exact this
    obtain ⟨h1, h2⟩ := hpair
    subst h1
    subst h2
    exact ⟨hw, he⟩
  | cons s rest ih =>
    intro w e w' e' h hw he
    cases hc : resolve_schedule_sections pcfc s.sections with
    | none =>
      rw [estLoop, hc] at h
      simp at h
    | some codes =>
      rw [estLoop, hc] at h
      simp only [bind, Option.bind] at h
      have hv : ∀ c ∈ (codes.filter fun c => valid.contains c).filter
          (fun c => !(dget (touch w s.person_id) s.person_id).contains c), c ∈ valid := by
        intro c hc2
        have h1 := (List.mem_filter.mp hc2).1
        have h2 := (List.mem_filter.mp h1).2
        simpa using h2
      exact ih h (touch_values hw) (upsertSet_values he hv)

theorem semesterData_spec {db : DB} {sem : String} {pre : SemesterData}
    (h : semesterData db sem = some pre) :
    ∃ snap sinfo w,
      snapshot_date db sem = some snap ∧
      section_info db sem = some sinfo ∧
      watchLoop (primary_course_full_codes db sem) (sinfo.map Prod.fst)
        (active_subscriptions db sem snap) [] = some w ∧
      estLoop (primary_course_full_codes db sem) (sinfo.map Prod.fst)
        (latest_schedules db sem) w [] = some (pre.watching, pre.est_registration) ∧
      pre.section_info = sinfo := by
  rw [semesterData] at h
  cases hs : snapshot_date db sem with
  | none => rw [hs] at h; simp at h
  | some snap =>
    rw [hs] at h
    simp only [bind, Option.bind] at h
    cases hsi : section_info db sem with
    | none => rw [hsi] at h; simp at h
    | some sinfo =>
      rw [hsi] at h
      simp only [bind, Option.bind] at h
      cases hw : watchLoop (primary_course_full_codes db sem) (sinfo.map Prod.fst)
          (active_subscriptions db sem snap) [] with
      | none => rw [hw] at h; simp at h
      | some w =>
        rw [hw] at h
        simp only [bind, Option.bind] at h
        cases he : estLoop (primary_course_full_codes db sem) (sinfo.map Prod.fst)
            (latest_schedules db sem) w [] with
        | none => rw [he] at h; simp at h
        | some pair =>
          rw [he] at h
          obtain ⟨w1, e⟩ := pair
          simp only [bind, Option.bind, pure] at h
          have hpre : pre = ⟨sinfo, w1, e⟩ := by
            cases h
            rfl
          subst hpre
          exact ⟨snap, sinfo, w, rfl, rfl, hw, he, rfl⟩

theorem keys_anonFrom : ∀ (ids : List Nat) (i : Nat), (anonFrom i ids).map Prod.fst = ids := by
  intro ids
  induction ids with
  | nil => intro i; rfl
  | cons u rest ih =>
    intro i
    simp [anonFrom, ih]

theorem anonFrom_lookup : ∀ (ids : List Nat) (i : Nat), ids.Nodup → ∀ u n,
    (dictGet (anonFrom i ids) u = some n ↔ ∃ j, ids[j]? = some u ∧ n = i + j) := by
  intro ids
  induction ids with
  | nil =>
    intro i hn u n
    simp [anonFrom, dictGet]
  | cons x rest ih =>
    intro i hn u n
    simp only [List.nodup_cons] at hn
    constructor
    · intro h
      cases hd : dictGet (anonFrom (i + 1) rest) u with
      | some m =>
        rw [anonFrom, dictGet_cons_collapse, hd] at h
        cases h
        obtain ⟨j, hj, hm⟩ := ((ih (i + 1) hn.2 u _).mp hd)
        refine ⟨j + 1, by simpa using hj, by omega⟩
      | none =>
        rw [anonFrom, dictGet_cons_collapse, hd] at h
        by_cases hx : x = u
        · rw [if_pos hx] at h
          cases h
          exact ⟨0, by simp [hx], by omega⟩
        · rw [if_neg hx] at h
          cases h
    · rintro ⟨j, hj, hn'⟩
      cases j with
      | zero =>
        simp only [List.getElem?_cons_zero] at hj
        cases hj
        have hd : dictGet (anonFrom (i + 1) rest) x = none := by
          apply dictGet_eq_none_of_not_mem
          rw [keys_anonFrom]
          exact hn.1
        rw [anonFrom, dictGet_cons_collapse, hd]
        simp [hn']
      | succ j' =>
        simp only [List.getElem?_cons_succ] at hj
        have hrec := (ih (i + 1) hn.2 u ((i + 1) + j')).mpr ⟨j', hj, rfl⟩
        rw [anonFrom, dictGet_cons_collapse, hrec]
        have : n = (i + 1) + j' := by omega
        rw [this]

theorem anon_num_lookup {ids : List Nat} (hn : ids.Nodup) {u n : Nat} :
    dictGet (anon_num ids) u = some n ↔ ids[n]? = some u := by
  rw [anon_num, anonFrom_lookup ids 0 hn]
  constructor
  · rintro ⟨j, hj, hn'⟩
    have : n = j := by omega
    rw [this]
    exact hj
  · intro h
    exact ⟨n, h, by omega⟩

theorem mem_student_ids {w e : List (Nat × List String)} {u : Nat} :
    u ∈ student_ids w e ↔ u ∈ w.map Prod.fst ∨ u ∈ e.map Prod.fst := by
  simp [student_ids, List.mem_dedup]

theorem nodup_student_ids {w e : List (Nat × List String)} : (student_ids w e).Nodup :=
  List.nodup_dedup _

theorem remapKeys_mem {anon : List (Nat × Nat)} :
    ∀ {m out : List (Nat × List String)}, remapKeys anon m = some out →
      ∀ {a : Nat} {v : List String},
        ((a, v) ∈ out ↔ ∃ u, (u, v) ∈ m ∧ dictGet anon u = some a) := by
  intro m
  induction m with
  | nil =>
    intro out h a v
    have : out = [] := by simpa [remapKeys] using h.symm
    subst this
    simp
  | cons p rest ih =>
    intro out h a v
    cases ha : dictGet anon p.1 with
    | none => rw [remapKeys, ha] at h; simp at h
    | some a0 =>
      rw [remapKeys, ha] at h
      cases ho : remapKeys anon rest with
      | none => rw [ho] at h; simp at h
      | some out' =>
        rw [ho] at h
        simp only [bind, Option.bind] at h
        cases h
        constructor
        · intro hm
          rcases List.mem_cons.mp hm with h1 | h1
          · have hv : v = p.2 := congrArg Prod.snd h1
            have haa : a = a0 := congrArg Prod.fst h1
            subst hv
            subst haa
            exact ⟨p.1, List.mem_cons_self _ _, ha⟩
          · obtain ⟨u, hu, hau⟩ := (ih ho).mp h1
            exact ⟨u, List.mem_cons_of_mem _ hu, hau⟩
        · rintro ⟨u, hu, hau⟩
          rcases List.mem_cons.mp hu with h1 | h1
          · have hu1 : u = p.1 := congrArg Prod.fst h1
            have hv : v = p.2 := congrArg Prod.snd h1
            subst hu1
            subst hv
            rw [ha] at hau
            cases hau
            exact List.mem_cons_self _ _
          · exact List.mem_cons_of_mem _ ((ih ho).mpr ⟨u, h1, hau⟩)

theorem remapKeys_nodup {anon : List (Nat × Nat)}
    (hinj : ∀ u1 u2 nn, dictGet anon u1 = some nn → dictGet anon u2 = some nn → u1 = u2) :
    ∀ {m out : List (Nat × List String)}, remapKeys anon m = some out →
      (m.map Prod.fst).Nodup → (out.map Prod.fst).Nodup := by
  intro m
  induction m with
  | nil =>
    intro out h hn
    have : out = [] := by simpa [remapKeys] using h.symm
    subst this
    simp
  | cons p rest ih =>
    intro out h hn
    simp only [List.map_cons, List.nodup_cons] at hn
    cases ha : dictGet anon p.1 with
    | none => rw [remapKeys, ha] at h; simp at h
    | some a0 =>
      rw [remapKeys, ha] at h
      cases ho : remapKeys anon rest with
      | none => rw [ho] at h; simp at h
      | some out' =>
        rw [ho] at h
        simp only [bind, Option.bind] at h
        cases h
        simp only [List.map_cons, List.nodup_cons]
        refine ⟨fun hmem => ?_, ih ho hn.2⟩
        simp only [List.mem_map] at hmem
        obtain ⟨q, hq, hq1⟩ := hmem
        have hq' : (q.1, q.2) ∈ out' := by simpa using hq
        obtain ⟨u, hu, hau⟩ := (remapKeys_mem ho).mp hq'
        rw [hq1] at hau
        have hup : u = p.1 := hinj u p.1 a0 hau ha
        apply hn.1
        rw [← hup]
        exact List.mem_map.mpr ⟨(u, q.2), hu, rfl⟩

theorem processSemester_spec {db : DB} {sem : String} {shuffle : List Nat → List Nat}
    {res : SemesterData} (h : processSemester db sem shuffle = some res) :
    ∃ pre wOut eOut, semesterData db sem = some pre ∧
      remapKeys (anonMap pre shuffle) pre.watching = some wOut ∧
      remapKeys (anonMap pre shuffle) pre.est_registration = some eOut ∧
      res = ⟨pre.section_info, wOut, eOut⟩ := by
  rw [processSemester] at h
  cases hpre : semesterData db sem with
  | none => rw [hpre] at h; simp at h
  | some pre =>
    rw [hpre] at h
    simp only [bind, Option.bind] at h
    cases hrw : remapKeys (anonMap pre shuffle) pre.watching with
    | none => rw [hrw] at h; simp at h
    | some wOut =>
      rw [hrw] at h
      simp only [bind, Option.bind] at h
      cases hre : remapKeys (anonMap pre shuffle) pre.est_registration with
      | none => rw [hre] at h; simp at h
      | some eOut =>
        rw [hre] at h
        simp only [bind, Option.bind, pure] at h
        cases h
        exact ⟨pre, wOut, eOut, rfl, hrw, hre, rfl⟩

theorem semesterData_nodups {db : DB} {sem : String} {pre : SemesterData}
    (h : semesterData db sem = some pre) :
    (pre.watching.map Prod.fst).Nodup ∧ (pre.est_registration.map Prod.fst).Nodup := by
  obtain ⟨snap, sinfo, w, hs, hsi, hw, he, hss⟩ := semesterData_spec h
  have h1 := (watchLoop_sound hw (by simp)).1
  have h2 := estLoop_sound he h1 (by simp)
  exact ⟨h2.1, h2.2.1⟩

theorem semesterData_est_disjoint {db : DB} {sem : String} {pre : SemesterData}
    (h : semesterData db sem = some pre) :
    ∀ p v, dictGet pre.est_registration p = some v → ∀ c ∈ v, c ∉ dget pre.watching p := by
  obtain ⟨snap, sinfo, w, hs, hsi, hw, he, hss⟩ := semesterData_spec h
  have hnw := (watchLoop_sound hw (by simp)).1
  obtain ⟨hw', he', hdg, hkw, hke, hlast, hnone⟩ := estLoop_sound he hnw (by simp)
  intro p v hv c hc
  cases hlw : lastWith p (latest_schedules db sem) with
  | none =>
    rw [hnone p hlw] at hv
    simp [dictGet] at hv
  | some s =>
    obtain ⟨v', hv1, hv2⟩ := hlast p s hlw
    rw [hv] at hv1
    cases hv1
    rw [estValue] at hv2
    cases hcodes : resolve_schedule_sections (primary_course_full_codes db sem) s.sections with
    | none => rw [hcodes] at hv2; simp at hv2
    | some codes =>
      rw [hcodes] at hv2
      simp only [Option.map] at hv2
      cases hv2
      have hfc := (List.mem_filter.mp hc).2
      rw [hdg p]
      intro hmem
      simp at hfc
      exact hfc hmem

theorem mem_active_subscriptions {db : DB} {sem : String} {snap : Int} {r : Registration} :
    r ∈ active_subscriptions db sem snap ↔
      r ∈ db.registrations ∧ subscription_filter sem snap r = true := by
  rw [active_subscriptions, (List.perm_insertionSort origLe _).mem_iff]
  simp [List.mem_filter]

theorem sorted_active_subscriptions {db : DB} {sem : String} {snap : Int} :
    List.Sorted origLe (active_subscriptions db sem snap) :=
  List.sorted_insertionSort origLe _

theorem sublist_pair_of_sorted :
    ∀ {l : List Registration}, List.Sorted origLe l →
      ∀ {a b : Registration}, a ∈ l → b ∈ l →
      a.original_created_at < b.original_created_at → [a, b].Sublist l := by
  intro l
  induction l with
  | nil => intro _ a b ha; simp at ha
  | cons x t ih =>
    intro hs a b ha hb hab
    have hsx := List.sorted_cons.mp hs
    have hbx : b ≠ x := by
      intro hbe
      subst hbe
      rcases List.mem_cons.mp ha with h1 | h1
      · subst h1
        omega
      · have := hsx.1 a h1
        rw [origLe] at this
        omega
    have hbt : b ∈ t := by
      rcases List.mem_cons.mp hb with h1 | h1
      · exact absurd h1 hbx
      · exact h1
    rcases List.mem_cons.mp ha with h1 | h1
    · subst h1
      exact List.cons_sublist_cons.mpr (List.singleton_sublist.mpr hbt)
    · exact List.Sublist.cons x (ih hsx.2 h1 hbt hab)

theorem subscription_filter_iff {sem : String} {snap : Int} {r : Registration}
    (hsem : r.section_course_semester = sem) :
    subscription_filter sem snap r = true ↔
      ((r.notification_sent_at = none ∨ ∃ t, r.notification_sent_at = some t ∧ snap < t) ∧
       (r.cancelled_at = none ∨ ∃ t, r.cancelled_at = some t ∧ snap < t) ∧
       (r.deleted_at = none ∨ ∃ t, r.deleted_at = some t ∧ snap < t) ∧
       r.created_at ≤ snap) := by
  cases hn : r.notification_sent_at <;> cases hc : r.cancelled_at <;>
    cases hd : r.deleted_at <;>
      simp [subscription_filter, hn, hc, hd, hsem, and_assoc]

theorem section_filter_iff {sem : String} {s : Section} :
    section_filter sem s = true ↔
      (s.status ≠ "X" ∧ s.activity ≠ "" ∧ s.course_semester = sem ∧
       s.course_primary_listing_id = s.course_id) := by
  simp [section_filter, and_assoc]

theorem section_info_rows_sound {db : DB} {sem : String} :
    ∀ {rows : List Section} {out : List (String × SectionRec)},
      section_info_rows db sem rows = some out →
      (out.map Prod.fst = rows.map Section.full_code) ∧
      (∀ fc rec, (fc, rec) ∈ out →
        ∃ s ∈ rows, s.full_code = fc ∧ ∃ act,
          dictGet db.activity_choices s.activity = some act ∧
          rec = mkSectionRec db sem act s) := by
  intro rows
  induction rows with
  | nil =>
    intro out h
    have : out = [] := by simpa [section_info_rows] using h.symm
    subst this
    simp
  | cons s rest ih =>
    intro out h
    cases ha : dictGet db.activity_choices s.activity with
    | none => rw [section_info_rows, ha] at h; simp at h
    | some act =>
      rw [section_info_rows, ha] at h
      cases ho : section_info_rows db sem rest with
      | none => rw [ho] at h; simp at h
      | some out' =>
        rw [ho] at h
        simp only [bind, Option.bind, pure] at h
        cases h
        obtain ⟨ihk, ihm⟩ := ih ho
        constructor
        · simp [ihk]
        · intro fc rec hmem
          rcases List.mem_cons.mp hmem with h1 | h1
          · have hfc : fc = s.full_code := congrArg Prod.fst h1
            have hrec : rec = mkSectionRec db sem act s := congrArg Prod.snd h1
            exact ⟨s, List.mem_cons_self _ _, hfc.symm, act, ha, hrec⟩
          · obtain ⟨s', hs', hfc, act', ha', hrec⟩ := ihm fc rec h1
            exact ⟨s', List.mem_cons_of_mem _ hs', hfc, act', ha', hrec⟩

theorem listMaxInt_le : ∀ {l : List Int} {m : Int}, listMaxInt l = some m → ∀ x ∈ l, x ≤ m := by
  intro l
  induction l with
  | nil => intro m h; simp [listMaxInt] at h
  | cons a rest ih =>
    intro m h x hx
    cases hr : listMaxInt rest with
    | none =>
      simp only [listMaxInt, hr] at h
      cases h
      have hrest : rest = [] := by
        cases hrr : rest with
        | nil => rfl
        | cons b rb =>
          rw [hrr] at hr
          cases hrb : listMaxInt rb with
          | none => simp [listMaxInt, hrb] at hr
          | some mb => simp [listMaxInt, hrb] at hr
      subst hrest
      rcases List.mem_cons.mp hx with h1 | h1
      · subst h1
        exact le_refl _
      · simp at h1
    | some m0 =>
      simp only [listMaxInt, hr] at h
      cases h
      rcases List.mem_cons.mp hx with h1 | h1
      · subst h1
        exact le_max_left _ _
      · exact le_trans (ih hr x h1) (le_max_right _ _)

theorem listMaxInt_mem : ∀ {l : List Int} {m : Int}, listMaxInt l = some m → m ∈ l := by
  intro l
  induction l with
  | nil => intro m h; simp [listMaxInt] at h
  | cons a rest ih =>
    intro m h
    cases hr : listMaxInt rest with
    | none =>
      simp only [listMaxInt, hr] at h
      cases h
      exact List.mem_cons_self _ _
    | some m0 =>
      simp only [listMaxInt, hr] at h
      cases h
      rcases max_choice a m0 with h1 | h1 <;> rw [h1]
      · exact List.mem_cons_self _ _
      · exact List.mem_cons_of_mem _ (ih hr)

theorem listMaxInt_eq_some {l : List Int} {x : Int} (hx : x ∈ l) (hall : ∀ y ∈ l, y ≤ x) :
    listMaxInt l = some x := by
  cases hm : listMaxInt l with
  | none =>
    exfalso
    cases l with
    | nil => simp at hx
    | cons a rest =>
      cases hr : listMaxInt rest with
      | none => simp [listMaxInt, hr] at hm
      | some m0 => simp [listMaxInt, hr] at hm
  | some m =>
    have h1 : m ≤ x := hall m (listMaxInt_mem hm)
    have h2 : x ≤ m := listMaxInt_le hm x hx
    have h3 : m = x := le_antisymm h1 h2
    rw [h3]

theorem lastWith_eq_none {p : Nat} : ∀ {l : List Schedule},
    (∀ t ∈ l, t.person_id ≠ p) → lastWith p l = none := by
  intro l
  induction l with
  | nil => intro _; rfl
  | cons s rest ih =>
    intro h
    rw [lastWith_cons, ih (fun t ht => h t (List.mem_cons_of_mem _ ht))]
    simp [h s (List.mem_cons_self _ _)]

theorem lastWith_eq_some {p : Nat} {sstar : Schedule} : ∀ {l : List Schedule},
    sstar ∈ l → sstar.person_id = p → (∀ t ∈ l, t.person_id = p → t = sstar) →
    lastWith p l = some sstar := by
  intro l
  induction l with
  | nil => intro hm; simp at hm
  | cons s rest ih =>
    intro hm hp huniq
    by_cases hr : sstar ∈ rest
    · rw [lastWith_cons, ih hr hp (fun t ht hpt => huniq t (List.mem_cons_of_mem _ ht) hpt)]
    · have hs : s = sstar := by
        rcases List.mem_cons.mp hm with h1 | h1
        · exact h1.symm
        · exact absurd h1 hr
      have hnone : lastWith p rest = none := by
        apply lastWith_eq_none
        intro t ht hpt
        have := huniq t (List.mem_cons_of_mem _ ht) hpt
        rw [this] at ht
        exact hr ht
      rw [lastWith_cons, hnone, hs]
      simp [hp]

theorem mem_latest_schedules {db : DB} {sem : String} {s : Schedule} :
    s ∈ latest_schedules db sem ↔
      s ∈ db.schedules ∧ s.semester = sem ∧
      max_updated_at db sem s.person_id = some s.updated_at := by
  simp [latest_schedules, List.mem_filter, and_assoc]

theorem anon_num_inj {ids : List Nat} (hn : ids.Nodup) {u1 u2 n : Nat}
    (h1 : dictGet (anon_num ids) u1 = some n) (h2 : dictGet (anon_num ids) u2 = some n) :
    u1 = u2 := by
  have e1 := (anon_num_lookup hn).mp h1
  have e2 := (anon_num_lookup hn).mp h2
  rw [e1] at e2
  exact Option.some.inj e2

theorem anon_num_isSome {ids : List Nat} {u : Nat} :
    (dictGet (anon_num ids) u).isSome = true ↔ u ∈ ids := by
  rw [dictGet_isSome_iff, anon_num, keys_anonFrom]

theorem anon_num_lt {ids : List Nat} (hn : ids.Nodup) {u n : Nat}
    (h : dictGet (anon_num ids) u = some n) : n < ids.length :=
  (List.getElem?_eq_some.mp ((anon_num_lookup hn).mp h)).1

theorem anon_num_surj {ids : List Nat} (hn : ids.Nodup) {n : Nat} (h : n < ids.length) :
    ∃ u, dictGet (anon_num ids) u = some n :=
  ⟨ids[n], (anon_num_lookup hn).mpr (List.getElem?_eq_getElem h)⟩

/-- C1: for every semester processed and every student key of the exported
estimated-registration mapping, the estimated registration set is disjoint
from that student's exported watch list (the estimation subtracts the
watched-section set from the latest-schedule section set). -/
theorem claim_c1_est_disjoint_watching (db : DB) (sem : String)
    (shuffle : List Nat → List Nat) (res : SemesterData)
    (hshuffle : ∀ l, (shuffle l).Perm l)
    (h : processSemester db sem shuffle = some res) :
    ∀ a ev wv, dictGet res.est_registration a = some ev →
      dictGet res.watching a = some wv → ∀ c ∈ ev, c ∉ wv := by
  obtain ⟨pre, wOut, eOut, hpre, hrw, hre, hres⟩ := processSemester_spec h
  subst hres
  obtain ⟨hnw, hne⟩ := semesterData_nodups hpre
  have hids : (shuffle (student_ids pre.watching pre.est_registration)).Nodup :=
    ((hshuffle _).nodup_iff).mpr nodup_student_ids
  intro a ev wv hev hwv c hc
  obtain ⟨u1, hu1, ha1⟩ := (remapKeys_mem hre).mp (dictGet_mem hev)
  obtain ⟨u2, hu2, ha2⟩ := (remapKeys_mem hrw).mp (dictGet_mem hwv)
  rw [anonMap] at ha1 ha2
  have hu12 : u1 = u2 := anon_num_inj hids ha1 ha2
  subst hu12
  have he1 : dictGet pre.est_registration u1 = some ev := dictGet_eq_some_of_mem hne hu1
  have hw1 : dictGet pre.watching u1 = some wv := dictGet_eq_some_of_mem hnw hu2
  have hdisj := semesterData_est_disjoint hpre u1 ev he1 c hc
  rw [dget, hw1] at hdisj
  exact hdisj

/-- C2: for every semester, the anonymization map is a bijection from
exactly the student ids appearing as keys of the watching or
estimated-registration mappings onto the dense index set 0..N-1, where N
is the number of such ids. -/
theorem claim_c2_anon_bijection (db : DB) (sem : String) (shuffle : List Nat → List Nat)
    (pre : SemesterData) (hpre : semesterData db sem = some pre)
    (hshuffle : ∀ l, (shuffle l).Perm l) :
    (∀ u, (dictGet (anonMap pre shuffle) u).isSome = true ↔
      (u ∈ pre.watching.map Prod.fst ∨ u ∈ pre.est_registration.map Prod.fst)) ∧
    (∀ u n, dictGet (anonMap pre shuffle) u = some n →
      n < (student_ids pre.watching pre.est_registration).length) ∧
    (∀ n, n < (student_ids pre.watching pre.est_registration).length →
      ∃ u, dictGet (anonMap pre shuffle) u = some n) ∧
    (∀ u1 u2 n, dictGet (anonMap pre shuffle) u1 = some n →
      dictGet (anonMap pre shuffle) u2 = some n → u1 = u2) := by
  have hperm := hshuffle (student_ids pre.watching pre.est_registration)
  have hids : (shuffle (student_ids pre.watching pre.est_registration)).Nodup :=
    (hperm.nodup_iff).mpr nodup_student_ids
  refine ⟨fun u => ?_, fun u n hn => ?_, fun n hn => ?_, fun u1 u2 n h1 h2 => ?_⟩
  · rw [anonMap, anon_num_isSome, hperm.mem_iff, mem_student_ids]
  · rw [anonMap] at hn
    have := anon_num_lt hids hn
    rwa [hperm.length_eq] at this
  · rw [← hperm.length_eq] at hn
    obtain ⟨u, hu⟩ := anon_num_surj hids hn
    exact ⟨u, by rw [anonMap]; exact hu⟩
  · rw [anonMap] at h1 h2
    exact anon_num_inj hids h1 h2

/-- C4: every section code in an exported watch list or estimated
registration is a key of that semester's section-metadata mapping (codes
outside it were silently dropped). -/
theorem claim_c4_values_valid (db : DB) (sem : String) (shuffle : List Nat → List Nat)
    (res : SemesterData) (h : processSemester db sem shuffle = some res) :
    (∀ q ∈ res.watching, ∀ c ∈ q.2, c ∈ res.section_info.map Prod.fst) ∧
    (∀ q ∈ res.est_registration, ∀ c ∈ q.2, c ∈ res.section_info.map Prod.fst) := by
  obtain ⟨pre, wOut, eOut, hpre, hrw, hre, hres⟩ := processSemester_spec h
  subst hres
  obtain ⟨snap, sinfo, w, hs, hsi, hw, he, hss⟩ := semesterData_spec hpre
  have hwv := watchLoop_values hw (by simp)
  obtain ⟨hwv', hev'⟩ := estLoop_values he hwv (by simp)
  constructor
  · intro q hq c hc
    have hq' : (q.1, q.2) ∈ wOut := by simpa using hq
    obtain ⟨u, hu, ha⟩ := (remapKeys_mem hrw).mp hq'
    have := hwv' (u, q.2) hu c hc
    simpa [hss] using this
  · intro q hq c hc
    have hq' : (q.1, q.2) ∈ eOut := by simpa using hq
    obtain ⟨u, hu, ha⟩ := (remapKeys_mem hre).mp hq'
    have := hev' (u, q.2) hu c hc
    simpa [hss] using this

/-- C5: a subscription row for a section of the given semester is included
in the watch-list extraction iff it was not notified (or notified strictly
after the snapshot), not cancelled (or cancelled strictly after), not
deleted (or deleted strictly after), and created at or before the
snapshot. -/
theorem claim_c5_subscription_inclusion (db : DB) (sem : String) (snap : Int)
    (r : Registration) (hr : r ∈ db.registrations)
    (hsem : r.section_course_semester = sem) :
    r ∈ active_subscriptions db sem snap ↔
      ((r.notification_sent_at = none ∨ ∃ t, r.notification_sent_at = some t ∧ snap < t) ∧
       (r.cancelled_at = none ∨ ∃ t, r.cancelled_at = some t ∧ snap < t) ∧
       (r.deleted_at = none ∨ ∃ t, r.deleted_at = some t ∧ snap < t) ∧
       r.created_at ≤ snap) := by
  rw [mem_active_subscriptions, subscription_filter_iff hsem]
  simp [hr]

/-- C6: the section-metadata mapping contains exactly the full codes of
this semester's sections that are not cancelled, have a non-empty
activity, and are their own course's primary listing; and every watch or
schedule reference surviving into the exported tables lies in it. -/
theorem claim_c6_section_info_keys (db : DB) (sem : String)
    (sinfo : List (String × SectionRec)) (hsi : section_info db sem = some sinfo) :
    (∀ fc, fc ∈ sinfo.map Prod.fst ↔
      ∃ s, s ∈ db.sections ∧ s.course_semester = sem ∧ s.status ≠ "X" ∧
        s.activity ≠ "" ∧ s.course_primary_listing_id = s.course_id ∧ s.full_code = fc) ∧
    (∀ shuffle res, processSemester db sem shuffle = some res →
      (∀ q ∈ res.watching, ∀ c ∈ q.2, c ∈ sinfo.map Prod.fst) ∧
      (∀ q ∈ res.est_registration, ∀ c ∈ q.2, c ∈ sinfo.map Prod.fst)) := by
  constructor
  · intro fc
    rw [section_info] at hsi
    have hkeys := (section_info_rows_sound hsi).1
    rw [hkeys]
    simp only [List.mem_map, List.mem_filter]
    constructor
    · rintro ⟨s, ⟨hs, hf⟩, hfc⟩
      obtain ⟨h1, h2, h3, h4⟩ := section_filter_iff.mp hf
      exact ⟨s, hs, h3, h1, h2, h4, hfc⟩
    · rintro ⟨s, hs, h3, h1, h2, h4, hfc⟩
      exact ⟨s, ⟨hs, section_filter_iff.mpr ⟨h1, h2, h3, h4⟩⟩, hfc⟩
  · intro shuffle res hres
    obtain ⟨pre, wOut, eOut, hpre, hrw, hre, hresq⟩ := processSemester_spec hres
    subst hresq
    obtain ⟨snap, sinfo', w, hs, hsi', hw, he, hss⟩ := semesterData_spec hpre
    rw [hsi] at hsi'
    have hse : sinfo' = sinfo := Option.some.inj hsi'.symm
    subst hse
    have hwv := watchLoop_values hw (by simp)
    obtain ⟨hwv', hev'⟩ := estLoop_values he hwv (by simp)
    constructor
    · intro q hq c hc
      have hq' : (q.1, q.2) ∈ wOut := by simpa using hq
      obtain ⟨u, hu, ha⟩ := (remapKeys_mem hrw).mp hq'
      exact hwv' (u, q.2) hu c hc
    · intro q hq c hc
      have hq' : (q.1, q.2) ∈ eOut := by simpa using hq
      obtain ⟨u, hu, ha⟩ := (remapKeys_mem hre).mp hq'
      exact hev' (u, q.2) hu c hc

/-- C7: every record of the section-metadata mapping comes from a filtered
section row, and its permit-required flag is true exactly when that
section's id lies in the restriction rule-set selected by the semester's
regime (`semester >= FIRST_BANNER_SEM` picks the newer rule source). -/
theorem claim_c7_permit_required (db : DB) (sem : String)
    (sinfo : List (String × SectionRec)) (hsi : section_info db sem = some sinfo) :
    ∀ fc rec, (fc, rec) ∈ sinfo →
      ∃ s, s ∈ db.sections ∧ section_filter sem s = true ∧ s.full_code = fc ∧
        (rec.permit_required = true ↔
          s.id ∈ (if pyStrLe db.first_banner_sem sem = true
            then db.ngss_special_approval_section_ids
            else db.prengss_special_approval_section_ids)) := by
  intro fc rec hmem
  rw [section_info] at hsi
  obtain ⟨s, hs, hfc, act, ha, hrec⟩ := (section_info_rows_sound hsi).2 fc rec hmem
  refine ⟨s, (List.mem_filter.mp hs).1, (List.mem_filter.mp hs).2, hfc, ?_⟩
  subst hrec
  simp [mkSectionRec, permit_required_ids]

/-- C8: the run produces output exactly when every semester in the list
processes successfully; an error in any semester (for example a missing
add/drop-period row) means nothing is written. -/
theorem claim_c8_all_or_nothing : ∀ (db : DB) (shuffle : List Nat → List Nat)
    (sems : List String),
    (runAll db shuffle sems).isSome = true ↔
      ∀ sem ∈ sems, (processSemester db sem shuffle).isSome = true := by
  intro db shuffle sems
  induction sems with
  | nil => simp [runAll]
  | cons sem rest ih =>
    cases hp : processSemester db sem shuffle with
    | none =>
      rw [runAll, hp]
      constructor
      · intro hfalse
        simp at hfalse
      · intro hall
        exfalso
        have := hall sem (List.mem_cons_self _ _)
        rw [hp] at this
        simp at this
    | some r =>
      rw [runAll, hp]
      simp only [bind, Option.bind]
      cases hrest : runAll db shuffle rest with
      | none =>
        constructor
        · intro hfalse
          simp at hfalse
        · intro hall
          have hsome : (runAll db shuffle rest).isSome = true :=
            ih.mpr (fun s hsmem => hall s (List.mem_cons_of_mem _ hsmem))
          rw [hrest] at hsome
          simp at hsome
      | some out =>
        constructor
        · intro _ s hsmem
          rcases List.mem_cons.mp hsmem with h1 | h1
          · subst h1
            simp [hp]
          · have hsome : (runAll db shuffle rest).isSome = true := by
              rw [hrest]
              rfl
            exact (ih.mp hsome) s h1
        · intro _
          simp

theorem rowContrib_none_of_ne_user {pcfc : List (Nat × String)} {valid : List String}
    {u : Nat} {r : Registration} (h : r.user_id ≠ u) : rowContrib pcfc valid u r = none := by
  cases hres : resolve_full_code pcfc r.section_course_primary_listing_id r.section_code with
  | none => simp [rowContrib, hres]
  | some fc => simp [rowContrib, hres, h]

/-- C3 (amended): a student's exported watch list lists the resolved codes
of their included subscriptions in ascending order of
`original_created_at` (the time the student originally began watching,
preserved across resubscribes), not of the row's `created_at`. -/
theorem claim_c3_watch_order_original_created (db : DB) (sem : String)
    (shuffle : List Nat → List Nat) (res pre : SemesterData) (snap : Int)
    (sinfo : List (String × SectionRec))
    (hshuffle : ∀ l, (shuffle l).Perm l)
    (h : processSemester db sem shuffle = some res)
    (hpre : semesterData db sem = some pre)
    (hsnap : snapshot_date db sem = some snap)
    (hsi : section_info db sem = some sinfo)
    (r1 r2 : Registration) (u : Nat)
    (h1 : r1 ∈ active_subscriptions db sem snap)
    (h2 : r2 ∈ active_subscriptions db sem snap)
    (hlt : r1.original_created_at < r2.original_created_at)
    (c1 c2 : String)
    (hc1 : rowContrib (primary_course_full_codes db sem) (sinfo.map Prod.fst) u r1 = some c1)
    (hc2 : rowContrib (primary_course_full_codes db sem) (sinfo.map Prod.fst) u r2 = some c2)
    (a : Nat) (ha : dictGet (anonMap pre shuffle) u = some a)
    (wv : List String) (hwv : dictGet res.watching a = some wv) :
    [c1, c2].Sublist wv := by
  obtain ⟨pre', wOut, eOut, hpre', hrw, hre, hres⟩ := processSemester_spec h
  rw [hpre] at hpre'
  have hpp : pre' = pre := Option.some.inj hpre'.symm
  rw [hpp] at hrw hre hres
  subst hres
  obtain ⟨snap', sinfo', w, hs, hsi', hw, he, hss⟩ := semesterData_spec hpre
  rw [hsnap] at hs
  have hsnap' : snap = snap' := Option.some.inj hs
  subst hsnap'
  rw [hsi] at hsi'
  have hsin : sinfo = sinfo' := Option.some.inj hsi'
  subst hsin
  obtain ⟨hnw, hne⟩ := semesterData_nodups hpre
  have hids : (shuffle (student_ids pre.watching pre.est_registration)).Nodup :=
    ((hshuffle _).nodup_iff).mpr nodup_student_ids
  obtain ⟨u2, hu2, ha2⟩ := (remapKeys_mem hrw).mp (dictGet_mem hwv)
  rw [anonMap] at ha2 ha
  have hu : u2 = u := anon_num_inj hids ha2 ha
  subst hu
  have hw1 : dictGet pre.watching u2 = some wv := dictGet_eq_some_of_mem hnw hu2
  obtain ⟨hWn, hdget, hkeyW⟩ := watchLoop_sound hw (by simp)
  obtain ⟨_, _, hdg, _, _, _, _⟩ := estLoop_sound he hWn (by simp)
  have hval : wv = (active_subscriptions db sem snap).filterMap
      (rowContrib (primary_course_full_codes db sem) (sinfo.map Prod.fst) u2) := by
    have e1 : dget pre.watching u2 = wv := by simp [dget, hw1]
    rw [hdg u2, hdget u2] at e1
    simpa [dget, dictGet] using e1.symm
  have hsub : [r1, r2].Sublist (active_subscriptions db sem snap) :=
    sublist_pair_of_sorted sorted_active_subscriptions h1 h2 hlt
  have hfil := hsub.filterMap
    (rowContrib (primary_course_full_codes db sem) (sinfo.map Prod.fst) u2)
  rw [hval]
  simpa [List.filterMap_cons, hc1, hc2] using hfil

/-- C3 counterexample: student 7 has two active subscriptions; the one
watching CIS-120-002 was created (`created_at`) earlier (10 < 20), yet the
produced watch list is [CIS-120-001, CIS-120-002] because the code orders
by `original_created_at` (5 < 10), so the earlier-created subscription's
section does not come first. -/
theorem claim_c3_counterexample :
    exRegB.created_at < exRegA.created_at ∧
    exRegA ∈ active_subscriptions exDb "2020C" 100 ∧
    exRegB ∈ active_subscriptions exDb "2020C" 100 ∧
    rowContrib (primary_course_full_codes exDb "2020C") (exSinfo.map Prod.fst) 7 exRegA =
      some "CIS-120-001" ∧
    rowContrib (primary_course_full_codes exDb "2020C") (exSinfo.map Prod.fst) 7 exRegB =
      some "CIS-120-002" ∧
    (semesterData exDb "2020C").map (fun p => dictGet p.watching 7) =
      some (some ["CIS-120-001", "CIS-120-002"]) ∧
    ¬ ["CIS-120-002", "CIS-120-001"].Sublist ["CIS-120-001", "CIS-120-002"] := by
  decide

/-- C9: for a student whose most-recently-updated schedule of the semester
is unique, exactly that schedule determines the student's estimated
registration: the exported value is that schedule's resolved codes
intersected with the valid sections minus the student's watch list. -/
theorem claim_c9_latest_schedule_determines (db : DB) (sem : String) (pre : SemesterData)
    (hpre : semesterData db sem = some pre) (sstar : Schedule)
    (hmem : sstar ∈ db.schedules) (hsem : sstar.semester = sem)
    (huniq : ∀ t ∈ db.schedules, t.semester = sem → t.person_id = sstar.person_id →
      t = sstar ∨ t.updated_at < sstar.updated_at) :
    ∃ v, dictGet pre.est_registration sstar.person_id = some v ∧
      estValue (primary_course_full_codes db sem) (pre.section_info.map Prod.fst)
        (dget pre.watching sstar.person_id) sstar = some v := by
  obtain ⟨snap, sinfo, w, hs, hsi, hw, he, hss⟩ := semesterData_spec hpre
  have hmax : max_updated_at db sem sstar.person_id = some sstar.updated_at := by
    apply listMaxInt_eq_some
    · refine List.mem_map.mpr ⟨sstar, ?_, rfl⟩
      simp [List.mem_filter, hmem, hsem]
    · intro y hy
      obtain ⟨t, ht, hty⟩ := List.mem_map.mp hy
      obtain ⟨htm, htf⟩ := List.mem_filter.mp ht
      simp only [Bool.and_eq_true, beq_iff_eq] at htf
      rcases huniq t htm htf.2 htf.1 with h1 | h1
      · rw [← hty, h1]
      · rw [← hty]
        omega
  have hlatest : sstar ∈ latest_schedules db sem :=
    mem_latest_schedules.mpr ⟨hmem, hsem, hmax⟩
  have huniq2 : ∀ t ∈ latest_schedules db sem, t.person_id = sstar.person_id → t = sstar := by
    intro t ht hp
    obtain ⟨htm, hts, htmax⟩ := mem_latest_schedules.mp ht
    rw [hp, hmax] at htmax
    have hup : sstar.updated_at = t.updated_at := Option.some.inj htmax
    rcases huniq t htm hts hp with h1 | h1
    · exact h1
    · omega
  have hlast : lastWith sstar.person_id (latest_schedules db sem) = some sstar :=
    lastWith_eq_some hlatest rfl huniq2
  have hnw := (watchLoop_sound hw (by simp)).1
  obtain ⟨_, _, hdg, _, _, hlastL, _⟩ := estLoop_sound he hnw (by simp)
  obtain ⟨v, hv1, hv2⟩ := hlastL sstar.person_id sstar hlast
  refine ⟨v, hv1, ?_⟩
  rw [hss]
  rw [← hdg sstar.person_id] at hv2
  exact hv2

/-- C10: every student key of the exported estimated-registration mapping
is also a key of the exported watching mapping; a student with a latest
schedule but no active subscriptions appears in the watching table with an
empty list (the defaultdict read inserts the key). -/
theorem claim_c10_est_keys_in_watching (db : DB) (sem : String)
    (shuffle : List Nat → List Nat) (res pre : SemesterData) (snap : Int)
    (h : processSemester db sem shuffle = some res)
    (hpre : semesterData db sem = some pre)
    (hsnap : snapshot_date db sem = some snap) :
    (∀ a v, dictGet res.est_registration a = some v →
      (dictGet res.watching a).isSome = true) ∧
    (∀ s ∈ latest_schedules db sem, ∃ wl, dictGet pre.watching s.person_id = some wl ∧
      ((∀ r ∈ active_subscriptions db sem snap, r.user_id ≠ s.person_id) → wl = [])) := by
  obtain ⟨pre', wOut, eOut, hpre', hrw, hre, hres⟩ := processSemester_spec h
  rw [hpre] at hpre'
  have hpp : pre' = pre := Option.some.inj hpre'.symm
  rw [hpp] at hrw hre hres
  subst hres
  obtain ⟨snap', sinfo, w, hs, hsi, hw, he, hss⟩ := semesterData_spec hpre
  rw [hsnap] at hs
  have hsnap' : snap = snap' := Option.some.inj hs
  subst hsnap'
  obtain ⟨hnw, hne⟩ := semesterData_nodups hpre
  obtain ⟨hWn, hdget, hkeyW⟩ := watchLoop_sound hw (by simp)
  obtain ⟨_, _, hdg, hkw, hke, _, _⟩ := estLoop_sound he hWn (by simp)
  constructor
  · intro a v hav
    obtain ⟨u, hu, ha⟩ := (remapKeys_mem hre).mp (dictGet_mem hav)
    have hue : (dictGet pre.est_registration u).isSome = true := by
      rw [dictGet_eq_some_of_mem hne hu]
      rfl
    rcases (hke u).mp hue with h1 | h1
    · simp [dictGet] at h1
    · have huw : (dictGet pre.watching u).isSome = true := (hkw u).mpr (Or.inr h1)
      obtain ⟨wl, hwl⟩ := Option.isSome_iff_exists.mp huw
      have hmemw : (u, wl) ∈ pre.watching := dictGet_mem hwl
      have hout : (a, wl) ∈ wOut := (remapKeys_mem hrw).mpr ⟨u, hmemw, ha⟩
      rw [dictGet_isSome_iff]
      exact List.mem_map.mpr ⟨(a, wl), hout, rfl⟩
  · intro s hsmem
    have hp : s.person_id ∈ (latest_schedules db sem).map Schedule.person_id :=
      List.mem_map.mpr ⟨s, hsmem, rfl⟩
    have huw : (dictGet pre.watching s.person_id).isSome = true := (hkw _).mpr (Or.inr hp)
    obtain ⟨wl, hwl⟩ := Option.isSome_iff_exists.mp huw
    refine ⟨wl, hwl, fun hnone => ?_⟩
    have hv : wl = (active_subscriptions db sem snap).filterMap
        (rowContrib (primary_course_full_codes db sem) (sinfo.map Prod.fst) s.person_id) := by
      have e1 : dget pre.watching s.person_id = wl := by simp [dget, hwl]
      rw [hdg _, hdget _] at e1
      simpa [dget, dictGet] using e1.symm
    rw [hv]
    rw [List.filterMap_eq_nil_iff]
    intro r hr
    exact rowContrib_none_of_ne_user (hnone r hr)

/-- Witness for C1: the theorem applied to the example database with the
identity shuffle, at anonymized student 1. -/
theorem claim_c1_witness : "CIS-120-001" ∉ ([] : List String) :=
  claim_c1_est_disjoint_watching exDb "2020C" (fun l => l) exOut
    (fun l => List.Perm.refl l) (by decide) 1 ["CIS-120-001"] []
    (by decide) (by decide) "CIS-120-001" (by decide)

/-- Witness for C2: the theorem applied to the example database, read off
at student 7. -/
theorem claim_c2_witness :
    (dictGet (anonMap exPre (fun l => l)) 7).isSome = true ↔
      (7 ∈ exPre.watching.map Prod.fst ∨ 7 ∈ exPre.est_registration.map Prod.fst) :=
  (claim_c2_anon_bijection exDb "2020C" (fun l => l) exPre (by decide)
    (fun l => List.Perm.refl l)).1 7

/-- Witness for the amended C3: applied to the example database, the two
subscriptions of student 7 in original-creation order. -/
theorem claim_c3_witness :
    ["CIS-120-001", "CIS-120-002"].Sublist ["CIS-120-001", "CIS-120-002"] :=
  claim_c3_watch_order_original_created exDb "2020C" (fun l => l) exOut exPre 100 exSinfo
    (fun l => List.Perm.refl l) (by decide) (by decide) (by decide) (by decide)
    exRegA exRegB 7 (by decide) (by decide) (by decide)
    "CIS-120-001" "CIS-120-002" (by decide) (by decide)
    0 (by decide) ["CIS-120-001", "CIS-120-002"] (by decide)

/-- Witness for C4: the theorem applied to the example database, at
anonymized student 0's first watched code. -/
theorem claim_c4_witness : "CIS-120-001" ∈ exOut.section_info.map Prod.fst :=
  (claim_c4_values_valid exDb "2020C" (fun l => l) exOut (by decide)).1
    (0, ["CIS-120-001", "CIS-120-002"]) (by decide) "CIS-120-001" (by decide)

/-- Witness for C5: the theorem applied to the example database's first
subscription row at snapshot 100. -/
theorem claim_c5_witness :
    exRegA ∈ active_subscriptions exDb "2020C" 100 ↔
      ((exRegA.notification_sent_at = none ∨
          ∃ t, exRegA.notification_sent_at = some t ∧ 100 < t) ∧
       (exRegA.cancelled_at = none ∨ ∃ t, exRegA.cancelled_at = some t ∧ 100 < t) ∧
       (exRegA.deleted_at = none ∨ ∃ t, exRegA.deleted_at = some t ∧ 100 < t) ∧
       exRegA.created_at ≤ 100) :=
  claim_c5_subscription_inclusion exDb "2020C" 100 exRegA (by decide) (by decide)

/-- Witness for C6: the theorem applied to the example database, read off
at full code CIS-120-001. -/
theorem claim_c6_witness :
    "CIS-120-001" ∈ exSinfo.map Prod.fst ↔
      ∃ s, s ∈ exDb.sections ∧ s.course_semester = "2020C" ∧ s.status ≠ "X" ∧
        s.activity ≠ "" ∧ s.course_primary_listing_id = s.course_id ∧
        s.full_code = "CIS-120-001" :=
  (claim_c6_section_info_keys exDb "2020C" exSinfo (by decide)).1 "CIS-120-001"

/-- Witness for C7: the theorem applied to the example database's record
for CIS-120-001. -/
theorem claim_c7_witness :
    ∃ s, s ∈ exDb.sections ∧ section_filter "2020C" s = true ∧
      s.full_code = "CIS-120-001" ∧
      ((⟨"Lecture", [], 5, 10, true, false⟩ : SectionRec).permit_required = true ↔
        s.id ∈ (if pyStrLe exDb.first_banner_sem "2020C" = true
          then exDb.ngss_special_approval_section_ids
          else exDb.prengss_special_approval_section_ids)) :=
  claim_c7_permit_required exDb "2020C" exSinfo (by decide) "CIS-120-001"
    ⟨"Lecture", [], 5, 10, true, false⟩ (by decide)

/-- Witness for C9: student 8's unique schedule determines their estimated
registration in the example database. -/
theorem claim_c9_witness :
    ∃ v, dictGet exPre.est_registration exSched8.person_id = some v ∧
      estValue (primary_course_full_codes exDb "2020C") (exPre.section_info.map Prod.fst)
        (dget exPre.watching exSched8.person_id) exSched8 = some v :=
  claim_c9_latest_schedule_determines exDb "2020C" exPre (by decide) exSched8
    (by decide) (by decide) (by decide)

/-- Witness for C10: anonymized student 1 (student 8) is a key of the
exported watching table, and student 8, who has a schedule but no
subscriptions, has the empty watch list. -/
theorem claim_c10_witness :
    (dictGet exOut.watching 1).isSome = true ∧
    (∃ wl, dictGet exPre.watching exSched8.person_id = some wl ∧
      ((∀ r ∈ active_subscriptions exDb "2020C" 100, r.user_id ≠ exSched8.person_id) →
        wl = [])) :=
  ⟨(claim_c10_est_keys_in_watching exDb "2020C" (fun l => l) exOut exPre 100
      (by decide) (by decide) (by decide)).1 1 ["CIS-120-001"] (by decide),
   (claim_c10_est_keys_in_watching exDb "2020C" (fun l => l) exOut exPre 100
      (by decide) (by decide) (by decide)).2 exSched8 (by decide)⟩
